import Mathlib

/-!
Shallow embedding of the retrieval / chat logic of "The Swarm Board"
(src/src/App.tsx; src/main.js holds two near-identical variants of the same
component whose core logic is character-for-character the same).

Strings are modelled as `List Char`. The JavaScript regex character classes
are modelled over their ASCII behaviour: the code runs the regexes without
the unicode flag, and the character classes `\w` and `\s` are modelled by
`isWordChar` and `isSpaceChar` below. `String.prototype.toLowerCase` is
modelled by `Char.toLower` char-wise (exact on the basic latin range the
model covers).
-/

/-- A JavaScript string, modelled as its list of characters. -/
abbrev Str := List Char

/-- The JS regex class `\w` (as used in `/[^\w\s]/g`): letters, digits, underscore. -/
def isWordChar (c : Char) : Bool := c.isAlphanum || c = '_'

/-- The JS regex class `\s` (ASCII fragment): space, tab, newline, carriage
return, vertical tab, form feed. -/
def isSpaceChar (c : Char) : Bool :=
  c = ' ' || c = '\t' || c = '\n' || c = '\r' || c = '\u000B' || c = '\u000C'

/-- `text.toLowerCase()`, char-wise. -/
def toLowerStr (s : Str) : Str := s.map Char.toLower

/-- `.replace(/[^\w\s]/g, '')`: delete every character that is neither a word
character nor whitespace. -/
def stripNonWord (s : Str) : Str := s.filter (fun c => isWordChar c || isSpaceChar c)

/-- `.split(/\s+/)`, modelled by splitting at every whitespace character.
The JS regex collapses a RUN of whitespace into one separator, so the JS
result and this one differ only in empty tokens (JS produces at most a
leading/trailing `""`, this produces one `[]` per extra separator); the
pipeline feeds the result into `.filter(w => w.length > 3)`, which removes
every empty token, after which the two splits agree exactly. -/
def splitOnSpace : Str → List Str
  | [] => [[]]
  | c :: cs =>
    if isSpaceChar c then [] :: splitOnSpace cs
    else
      match splitOnSpace cs with
      | [] => [[c]]
      | w :: ws => (c :: w) :: ws

/-- `Array.prototype.indexOf`: the first index holding the value. (JS returns
-1 when the value is absent; this returns `l.length` instead, which makes no
difference below, where the value looked up is always an element.) -/
def jsIndexOf (a : Str) : List Str → Nat
  | [] => 0
  | x :: xs => if x = a then 0 else jsIndexOf a xs + 1

/-- `.filter((v, i, a) => a.indexOf(v) === i)`: keep an element exactly when
its index is the first index at which its value occurs. -/
def jsUniqueFilter (l : List Str) : List Str :=
  (l.enum.filter (fun p => jsIndexOf p.2 l == p.1)).map Prod.snd

/-- `extractKeywords` (src/src/App.tsx lines 55-61):
lowercase, strip characters that are neither word nor whitespace, split on
whitespace, keep tokens of length > 3, keep only first occurrences. -/
def extractKeywords (text : Str) : List Str :=
  jsUniqueFilter ((splitOnSpace (stripNonWord (toLowerStr text))).filter (fun w => 3 < w.length))

/-- Spec-side dedup: drop an element when it was already seen, otherwise keep
it and remember it ("deduplicate while preserving first-seen order"). -/
def dedupSeen (seen : List Str) : List Str → List Str
  | [] => []
  | x :: xs => if x ∈ seen then dedupSeen seen xs else x :: dedupSeen (x :: seen) xs

/-- Spec-side split on whitespace: the maximal whitespace-free words of the
text, in order, with no empty tokens. -/
def specWords : Str → List Str
  | [] => []
  | c :: cs =>
    if isSpaceChar c then specWords cs
    else (c :: cs.takeWhile (fun d => !isSpaceChar d)) ::
      specWords (cs.dropWhile (fun d => !isSpaceChar d))
termination_by s => s.length
decreasing_by
  · simp
  · have h2 : (cs.dropWhile (fun d => !isSpaceChar d)).length ≤ cs.length :=
      (List.dropWhile_sublist _).length_le
    simp
    omega

/-- Modelled from the spec (§3 invariant, §4.1): "lowercase, strip non-word
characters, split on whitespace, drop tokens of length ≤3, deduplicate while
preserving first-seen order". Stripping retains whitespace, which the next
stage splits on. -/
def specExtractKeywords (text : Str) : List Str :=
  dedupSeen [] ((specWords (stripNonWord (toLowerStr text))).filter (fun w => 3 < w.length))

/-- `Array.prototype.join(sep)`. -/
def joinSep (sep : Str) : List Str → Str
  | [] => []
  | [x] => x
  | x :: y :: xs => x ++ sep ++ joinSep sep (y :: xs)

-- --- Data model (src/src/App.tsx lines 39-52) ---

/-- A knowledge base entry. -/
structure KnowledgeItem where
  id : Str
  category : Str
  title : Str
  content : Str
  keywords : List Str
deriving DecidableEq, Repr

/-- Chat message roles. -/
inductive Role where
  | user
  | ai
  | system
deriving DecidableEq, Repr

/-- A chat message. -/
structure Message where
  id : Str
  role : Role
  content : Str
  timestamp : Nat
deriving DecidableEq, Repr

-- --- Retrieval scoring (src/src/App.tsx lines 219-238) ---

/-- The relevance score of one item (the body of `knowledgeBase.map`):
`score = 0`; `+10` when `item.title.toLowerCase().includes(query.toLowerCase())`;
then for each query keyword, `+2` when it is a member of `item.keywords` and
`+1` when it is a substring of `item.content.toLowerCase()`. -/
def scoreOf (queryKeywords : List Str) (queryText : Str) (item : KnowledgeItem) : Nat :=
  queryKeywords.foldl
    (fun score k =>
      let score := if k ∈ item.keywords then score + 2 else score
      if k <:+: toLowerStr item.content then score + 1 else score)
    (if toLowerStr queryText <:+: toLowerStr item.title then 10 else 0)

/-- The keyword-overlap part of the score alone (starting from 0 instead of
from the title bonus). -/
def kwScore (queryKeywords : List Str) (item : KnowledgeItem) : Nat :=
  queryKeywords.foldl
    (fun score k =>
      let score := if k ∈ item.keywords then score + 2 else score
      if k <:+: toLowerStr item.content then score + 1 else score)
    0

/-- `const scoredItems = knowledgeBase.map(item => ({item, score}))`. -/
def scoredItems (kb : List KnowledgeItem) (q : Str) : List (KnowledgeItem × Nat) :=
  kb.map (fun item => (item, scoreOf (extractKeywords q) q item))

/-- Stable descending insertion: place `x` after every element whose score is
strictly larger, before the first whose score is ≤ — so among equal scores the
earlier element stays first. -/
def insertDesc (x : KnowledgeItem × Nat) : List (KnowledgeItem × Nat) → List (KnowledgeItem × Nat)
  | [] => [x]
  | y :: ys => if x.2 < y.2 then y :: insertDesc x ys else x :: y :: ys

/-- `.sort((a, b) => b.score - a.score)`. ECMAScript's `Array.prototype.sort`
is stable and, with this consistent comparator, produces the unique
permutation that is non-increasing in score with equal scores kept in the
original order; this stable insertion sort produces that same permutation. -/
def sortByScoreDesc : List (KnowledgeItem × Nat) → List (KnowledgeItem × Nat)
  | [] => []
  | x :: xs => insertDesc x (sortByScoreDesc xs)

/-- `.filter(x => x.score > 0).sort((a, b) => b.score - a.score).slice(0, 5)`. -/
def retrievedItems (kb : List KnowledgeItem) (q : Str) : List (KnowledgeItem × Nat) :=
  (sortByScoreDesc ((scoredItems kb q).filter (fun x => 0 < x.2))).take 5

/-- `` `[Source: ${x.item.title}]\n${x.item.content}` ``. -/
def renderSource (x : KnowledgeItem × Nat) : Str :=
  ("[Source: ").toList ++ x.1.title ++ ("]\n").toList ++ x.1.content

/-- `const relevantContext = ... .map(...).join('\n\n')`. -/
def relevantContext (kb : List KnowledgeItem) (q : Str) : Str :=
  joinSep ("\n\n").toList ((retrievedItems kb q).map renderSource)

/-- The fixed "no matches" placeholder. -/
def noMatchesPlaceholder : Str := ("No specific database matches found.").toList

/-- `${relevantContext || "No specific database matches found."}`: the JS `||`
takes the placeholder exactly when `relevantContext` is the empty string. -/
def contextString (kb : List KnowledgeItem) (q : Str) : Str :=
  if relevantContext kb q = [] then noMatchesPlaceholder else relevantContext kb q

-- --- Component state and event handlers ---

/-- The React component state of `CryptoKnowledgeBank` (the `useState` hooks,
excluding the view toggle, which no claim touches). `user` records whether the
anonymous sign-in has produced a handle. -/
structure AppState where
  user : Bool
  apiKey : Str
  knowledgeBase : List KnowledgeItem
  messages : List Message
  input : Str
  isLoading : Bool
  adminPasswordInput : Str
  isAdminUnlocked : Bool
  loginError : Bool
  newItemTitle : Str
  newItemCategory : Str
  newItemContent : Str
deriving DecidableEq, Repr

/-- A write issued against the external document store. -/
inductive StoreOp where
  | addRecord (title category content : Str) (keywords : List Str)
  | deleteRecord (id : Str)
deriving DecidableEq, Repr

/-- The outcome of the completion-endpoint call, seen from the handler:
either the `fetch`/`response.json()` promise rejects (transport error, caught
with the rejection's message), or a JSON payload arrives, carrying
`error.message` when `data.error` is set, and
`candidates[0].content.parts[0].text` when that shape is present. -/
inductive FetchOutcome where
  | reject (msg : Str)
  | payload (errMsg : Option Str) (candidateText : Option Str)
deriving DecidableEq, Repr

/-- `Date.now().toString()` / `(Date.now() + 1).toString()`. -/
def natId (n : Nat) : Str := (Nat.repr n).toList

/-- `String.prototype.trim()` over the modelled whitespace class. -/
def trimStr (s : Str) : Str :=
  ((s.dropWhile isSpaceChar).reverse.dropWhile isSpaceChar).reverse

/-- `const userMsg = { id: Date.now().toString(), role: 'user', content: input,
timestamp: Date.now() }` (the two `Date.now()` calls are modelled as one
instant `now`). -/
def userMsgOf (s : AppState) (now : Nat) : Message :=
  { id := natId now, role := Role.user, content := s.input, timestamp := now }

/-- The first fixed piece of the `systemPrompt` template literal
(src/src/App.tsx lines 241-251), up to the interpolated context. -/
def promptHead : Str :=
  ("\n        You are the official AI Assistant for a crypto project. \n        Your goal is to answer user questions ACCURATELY based ONLY on the provided context.\n        \n        Tone: Professional, slightly futuristic, helpful, and concise.\n        \n        If the answer is not in the context, strictly state: \"I currently do not have that specific data in my knowledge bank.\"\n        Do not hallucinate facts.\n        \n        CONTEXT FROM KNOWLEDGE BANK:\n        ").toList

/-- The tail of the `systemPrompt` template literal after the context. -/
def promptTail : Str := ("\n      ").toList

/-- The full text sent to the completion endpoint:
`` `System Instruction: ${systemPrompt}\n\nUser Question: ${userMsg.content}` ``. -/
def requestTextOf (kb : List KnowledgeItem) (q : Str) : Str :=
  ("System Instruction: ").toList ++ (promptHead ++ contextString kb q ++ promptTail)
    ++ ("\n\nUser Question: ").toList ++ q

/-- The message thrown when no API key is configured
(`throw new Error("System Offline: API Key not configured by Admin.")`). -/
def offlineText : Str := ("System Offline: API Key not configured by Admin.").toList

/-- The fallback reply used when the response payload lacks the expected
shape (`|| "Communication error with neural net."`). -/
def commFallback : Str := ("Communication error with neural net.").toList

/-- The catch block renders every error as `` `Error: ${error.message}` ``. -/
def errMessageOf (settle : Nat) (m : Str) : Message :=
  { id := natId (settle + 1), role := Role.system,
    content := ("Error: ").toList ++ m, timestamp := settle }

/-- `handleSendMessage` (src/src/App.tsx lines 208-295). `now` is the instant
the user message is created, `settle` the instant the call settles, `oracle`
the behaviour of the external endpoint. Besides the next state it returns the
request text handed to `fetch`, or `none` when no network call is issued.
The guard `if (!input.trim()) return` makes blank input a no-op; otherwise the
user message is appended synchronously, the input cleared and the pending flag
set, and every outcome of the try/catch/finally appends exactly one further
message and clears the pending flag. -/
def handleSendMessage (s : AppState) (now settle : Nat) (oracle : FetchOutcome) :
    AppState × Option Str :=
  if trimStr s.input = [] then (s, none)
  else
    let userMsg := userMsgOf s now
    let s1 := { s with messages := s.messages ++ [userMsg], input := [], isLoading := true }
    let req := requestTextOf s.knowledgeBase userMsg.content
    if s.apiKey = [] then
      ({ s1 with messages := s1.messages ++ [errMessageOf settle offlineText],
                 isLoading := false }, none)
    else
      match oracle with
      | FetchOutcome.reject m =>
        ({ s1 with messages := s1.messages ++ [errMessageOf settle m],
                   isLoading := false }, some req)
      | FetchOutcome.payload (some m) _ =>
        ({ s1 with messages := s1.messages ++ [errMessageOf settle m],
                   isLoading := false }, some req)
      | FetchOutcome.payload none t =>
        let aiText := match t with
          | none => commFallback
          | some tx => if tx = [] then commFallback else tx
        ({ s1 with messages := s1.messages ++
            [{ id := natId (settle + 1), role := Role.ai, content := aiText,
               timestamp := settle }],
                   isLoading := false }, some req)

/-- `handleAddItem` (src/src/App.tsx lines 176-196): bail out when title or
content is empty (JS falsiness of the empty string) or no auth handle exists;
otherwise compute keywords over `title + ' ' + content + ' ' + category`,
issue the store write, and clear the title and content fields. The rendered
knowledge list is not touched. -/
def handleAddItem (s : AppState) : AppState × Option StoreOp :=
  if s.newItemTitle = [] ∨ s.newItemContent = [] then (s, none)
  else if s.user = false then (s, none)
  else
    let keywords := extractKeywords
      (s.newItemTitle ++ ' ' :: s.newItemContent ++ ' ' :: s.newItemCategory)
    ({ s with newItemTitle := [], newItemContent := [] },
      some (StoreOp.addRecord s.newItemTitle s.newItemCategory s.newItemContent keywords))

/-- `handleDeleteItem` (src/src/App.tsx lines 198-205): with an auth handle,
issue the store delete for the given id; local state is not touched. -/
def handleDeleteItem (s : AppState) (id : Str) : AppState × Option StoreOp :=
  if s.user = false then (s, none) else (s, some (StoreOp.deleteRecord id))

/-- The `onSnapshot` subscription callback for the knowledge collection
(src/src/App.tsx lines 118-126): replace the rendered list with the pushed
snapshot. -/
def applyKnowledgeSnapshot (s : AppState) (items : List KnowledgeItem) : AppState :=
  { s with knowledgeBase := items }

-- --- Lemmas: the stable descending sort ---

theorem insertDesc_perm (x : KnowledgeItem × Nat) (l : List (KnowledgeItem × Nat)) :
    List.Perm (insertDesc x l) (x :: l) := by
  induction l with
  | nil => rfl
  | cons y ys ih =>
    rw [insertDesc]
    split
    · exact (ih.cons y).trans (List.Perm.swap x y ys)
    · rfl

theorem sortByScoreDesc_perm (l : List (KnowledgeItem × Nat)) :
    List.Perm (sortByScoreDesc l) l := by
  induction l with
  | nil => rfl
  | cons x xs ih => exact (insertDesc_perm x (sortByScoreDesc xs)).trans (ih.cons x)

theorem mem_insertDesc {y x : KnowledgeItem × Nat} {l : List (KnowledgeItem × Nat)} :
    y ∈ insertDesc x l ↔ y = x ∨ y ∈ l := by
  rw [(insertDesc_perm x l).mem_iff, List.mem_cons]

theorem pairwise_insertDesc {x : KnowledgeItem × Nat} {l : List (KnowledgeItem × Nat)}
    (h : l.Pairwise (fun a b => b.2 ≤ a.2)) :
    (insertDesc x l).Pairwise (fun a b => b.2 ≤ a.2) := by
  induction l with
  | nil => simp [insertDesc]
  | cons y ys ih =>
    rw [insertDesc]
    rcases h with - | ⟨hy, hys⟩
    split
    · refine List.Pairwise.cons (fun z hz => ?_) (ih hys)
      rcases mem_insertDesc.1 hz with rfl | hz
      · omega
      · exact hy z hz
    · refine List.Pairwise.cons (fun z hz => ?_) (List.Pairwise.cons hy hys)
      rcases List.mem_cons.1 hz with rfl | hz
      · omega
      · exact le_trans (hy z hz) (by omega)

theorem sorted_sortByScoreDesc (l : List (KnowledgeItem × Nat)) :
    (sortByScoreDesc l).Pairwise (fun a b => b.2 ≤ a.2) := by
  induction l with
  | nil => exact List.Pairwise.nil
  | cons x xs ih => exact pairwise_insertDesc ih

theorem filter_insertDesc (x : KnowledgeItem × Nat) (l : List (KnowledgeItem × Nat)) (n : Nat) :
    (insertDesc x l).filter (fun y => decide (y.2 = n))
      = if x.2 = n then x :: l.filter (fun y => decide (y.2 = n))
        else l.filter (fun y => decide (y.2 = n)) := by
  induction l with
  | nil => by_cases hx : x.2 = n <;> simp [insertDesc, hx]
  | cons y ys ih =>
    rw [insertDesc]
    split
    · rename_i hlt
      rw [List.filter_cons, ih, List.filter_cons]
      by_cases hx : x.2 = n
      · have hy : ¬ y.2 = n := by omega
        simp [hx, hy]
      · simp [hx]
    · rw [List.filter_cons]
      by_cases hx : x.2 = n
      · simp [hx]
      · simp [hx]

theorem filter_sortByScoreDesc (l : List (KnowledgeItem × Nat)) (n : Nat) :
    (sortByScoreDesc l).filter (fun y => decide (y.2 = n))
      = l.filter (fun y => decide (y.2 = n)) := by
  induction l with
  | nil => rfl
  | cons x xs ih =>
    rw [sortByScoreDesc, filter_insertDesc, List.filter_cons]
    by_cases hx : x.2 = n
    · simp [hx, ih]
    · simp [hx, ih]

-- --- Lemmas: the `indexOf`-based unique filter is first-seen deduplication ---

theorem jsIndexOf_append_of_mem {a : Str} {l₁ : List Str} (h : a ∈ l₁) (l₂ : List Str) :
    jsIndexOf a (l₁ ++ l₂) = jsIndexOf a l₁ := by
  induction l₁ with
  | nil => cases h
  | cons x xs ih =>
    rw [List.cons_append, jsIndexOf, jsIndexOf]
    by_cases hx : x = a
    · simp [hx]
    · rcases List.mem_cons.1 h with rfl | h'
      · exact absurd rfl hx
      · simp [hx, ih h']

theorem jsIndexOf_lt_length {a : Str} {l : List Str} (h : a ∈ l) :
    jsIndexOf a l < l.length := by
  induction l with
  | nil => cases h
  | cons x xs ih =>
    rw [jsIndexOf]
    by_cases hx : x = a
    · simp [hx]
    · rcases List.mem_cons.1 h with rfl | h'
      · exact absurd rfl hx
      · simp only [hx, if_false, List.length_cons]
        exact Nat.succ_lt_succ (ih h')

theorem jsIndexOf_append_of_not_mem {a : Str} {l₁ : List Str} (h : a ∉ l₁) (l₂ : List Str) :
    jsIndexOf a (l₁ ++ l₂) = l₁.length + jsIndexOf a l₂ := by
  induction l₁ with
  | nil => simp
  | cons x xs ih =>
    have hx : ¬ x = a := fun e => h (e ▸ List.mem_cons_self x xs)
    have hxs : a ∉ xs := fun e => h (List.mem_cons_of_mem x e)
    rw [List.cons_append, jsIndexOf, if_neg hx, ih hxs, List.length_cons]
    omega

theorem dedupSeen_congr {s₁ s₂ : List Str} (h : ∀ a, a ∈ s₁ ↔ a ∈ s₂) :
    ∀ l, dedupSeen s₁ l = dedupSeen s₂ l
  | [] => rfl
  | x :: xs => by
    rw [dedupSeen, dedupSeen]
    by_cases hx : x ∈ s₁
    · rw [if_pos hx, if_pos ((h x).1 hx), dedupSeen_congr h xs]
    · have hcong : ∀ a : Str, a ∈ x :: s₁ ↔ a ∈ x :: s₂ := fun a => by simp [h a]
      rw [if_neg hx, if_neg (fun hc => hx ((h x).2 hc)), dedupSeen_congr hcong xs]

theorem enumFrom_filter_jsIndexOf (l : List Str) :
    ∀ seen : List Str,
      ((l.enumFrom seen.length).filter
        (fun p => jsIndexOf p.2 (seen ++ l) == p.1)).map Prod.snd = dedupSeen seen l := by
  induction l with
  | nil => intro seen; rfl
  | cons x xs ih =>
    intro seen
    have hsplit : seen ++ x :: xs = (seen ++ [x]) ++ xs := by simp
    have hlen : seen.length + 1 = (seen ++ [x]).length := by simp
    rw [List.enumFrom_cons, List.filter_cons, dedupSeen]
    by_cases hx : x ∈ seen
    · have hne : (jsIndexOf x (seen ++ x :: xs) == seen.length) = false := by
        rw [jsIndexOf_append_of_mem hx]
        have := jsIndexOf_lt_length hx
        simp only [beq_eq_false_iff_ne, ne_eq]
        omega
      have hseen : ∀ a : Str, a ∈ seen ++ [x] ↔ a ∈ seen := by
        intro a
        simp only [List.mem_append, List.mem_singleton]
        constructor
        · rintro (ha | rfl)
          · exact ha
          · exact hx
        · exact Or.inl
      simp only [hne, Bool.false_eq_true, if_false, if_pos hx]
      rw [hsplit, hlen, ih (seen ++ [x]), dedupSeen_congr hseen xs]
    · have heq : (jsIndexOf x (seen ++ x :: xs) == seen.length) = true := by
        rw [jsIndexOf_append_of_not_mem hx, jsIndexOf, if_pos rfl]
        simp
      have hseen : ∀ a : Str, a ∈ seen ++ [x] ↔ a ∈ x :: seen := by
        intro a
        simp only [List.mem_append, List.mem_singleton, List.mem_cons]
        tauto
      simp only [heq, if_true, if_neg hx, List.map_cons]
      rw [hsplit, hlen, ih (seen ++ [x]), dedupSeen_congr hseen xs]

theorem jsUniqueFilter_eq_dedupSeen (l : List Str) : jsUniqueFilter l = dedupSeen [] l := by
  have h := enumFrom_filter_jsIndexOf l []
  simpa [jsUniqueFilter, List.enum] using h

-- --- Lemmas: splitting on whitespace ---

theorem splitOnSpace_ne_nil (s : Str) : splitOnSpace s ≠ [] := by
  cases s with
  | nil => simp [splitOnSpace]
  | cons c cs =>
    rw [splitOnSpace]
    split
    · simp
    · split <;> simp

theorem splitOnSpace_cons_space {c : Char} (h : isSpaceChar c = true) (s : Str) :
    splitOnSpace (c :: s) = [] :: splitOnSpace s := by
  rw [splitOnSpace, if_pos h]

theorem splitOnSpace_cons_nonspace {c : Char} (h : isSpaceChar c = false) (s : Str) :
    splitOnSpace (c :: s) = (c :: (splitOnSpace s).headI) :: (splitOnSpace s).tail := by
  rw [splitOnSpace, if_neg (by simp [h])]
  rcases hs : splitOnSpace s with - | ⟨w, ws⟩
  · exact absurd hs (splitOnSpace_ne_nil s)
  · rfl

theorem splitOnSpace_append_spacefree {w : Str} (hw : ∀ c ∈ w, isSpaceChar c = false)
    (s : Str) :
    splitOnSpace (w ++ s) = (w ++ (splitOnSpace s).headI) :: (splitOnSpace s).tail := by
  induction w with
  | nil =>
    rcases hs : splitOnSpace s with - | ⟨v, vs⟩
    · exact absurd hs (splitOnSpace_ne_nil s)
    · simp [hs]
  | cons c w' ih =>
    rw [List.cons_append,
      splitOnSpace_cons_nonspace (hw c (List.mem_cons_self c w')) (w' ++ s),
      ih (fun d hd => hw d (List.mem_cons_of_mem c hd))]
    simp

theorem headI_splitOnSpace (s : Str) :
    (splitOnSpace s).headI = s.takeWhile (fun d => !isSpaceChar d) := by
  induction s with
  | nil => rfl
  | cons c cs ih =>
    by_cases hc : isSpaceChar c = true
    · rw [splitOnSpace_cons_space hc, List.takeWhile_cons_of_neg (by simp [hc])]
      rfl
    · have hc' : isSpaceChar c = false := by simpa using hc
      rw [splitOnSpace_cons_nonspace hc', List.takeWhile_cons_of_pos (by simp [hc']), ih]
      rfl

theorem tail_splitOnSpace (s : Str) :
    (splitOnSpace s).tail =
      match s.dropWhile (fun d => !isSpaceChar d) with
      | [] => []
      | _ :: r => splitOnSpace r := by
  induction s with
  | nil => rfl
  | cons c cs ih =>
    by_cases hc : isSpaceChar c = true
    · rw [splitOnSpace_cons_space hc, List.dropWhile_cons_of_neg (by simp [hc])]
      rfl
    · have hc' : isSpaceChar c = false := by simpa using hc
      rw [splitOnSpace_cons_nonspace hc', List.dropWhile_cons_of_pos (by simp [hc'])]
      exact ih

theorem specWords_eq_filter_splitOnSpace (s : Str) :
    specWords s = (splitOnSpace s).filter (fun w => !w.isEmpty) := by
  induction s using specWords.induct with
  | case1 => simp [specWords, splitOnSpace]
  | case2 c cs hc ih =>
    rw [specWords, if_pos hc, splitOnSpace_cons_space hc, List.filter_cons]
    simpa using ih
  | case3 c cs hc ih =>
    rw [specWords, if_neg hc, splitOnSpace_cons_nonspace (Bool.eq_false_iff.2 hc),
      List.filter_cons]
    have hhead : (!(c :: (splitOnSpace cs).headI).isEmpty) = true := by simp
    rw [hhead, if_pos rfl, headI_splitOnSpace, tail_splitOnSpace, ih]
    rcases hd : cs.dropWhile (fun d => !isSpaceChar d) with - | ⟨d, r⟩
    · simp [hd, splitOnSpace, List.filter_cons]
    · have hds : isSpaceChar d = true := by
        have := List.head_dropWhile_not (fun d => !isSpaceChar d) cs (by simp [hd])
        simpa [hd] using this
      simp only [hd]
      rw [splitOnSpace_cons_space hds, List.filter_cons]
      simp

-- --- Lemmas: the two keyword pipelines agree ---

theorem filter_len_splitOnSpace (s : Str) :
    (splitOnSpace s).filter (fun w => 3 < w.length)
      = (specWords s).filter (fun w => 3 < w.length) := by
  rw [specWords_eq_filter_splitOnSpace, List.filter_filter]
  apply List.filter_congr
  intro w _
  cases w with
  | nil => simp
  | cons a as => simp

theorem extractKeywords_eq_spec (t : Str) : specExtractKeywords t = extractKeywords t := by
  rw [specExtractKeywords, extractKeywords, jsUniqueFilter_eq_dedupSeen,
    filter_len_splitOnSpace]

-- --- Lemmas: first-seen deduplication ---

theorem dedupSeen_sublist (seen : List Str) : ∀ l, List.Sublist (dedupSeen seen l) l
  | [] => List.Sublist.refl []
  | x :: xs => by
    rw [dedupSeen]
    by_cases hx : x ∈ seen
    · exact (if_pos hx) ▸ (dedupSeen_sublist seen xs).cons x
    · exact (if_neg hx) ▸ (dedupSeen_sublist (x :: seen) xs).cons₂ x

theorem mem_dedupSeen {a : Str} : ∀ {seen l : List Str},
    a ∈ dedupSeen seen l → a ∈ l ∧ a ∉ seen := by
  intro seen l
  induction l generalizing seen with
  | nil => intro h; cases h
  | cons x xs ih =>
    rw [dedupSeen]
    by_cases hx : x ∈ seen
    · rw [if_pos hx]
      intro h
      exact ⟨List.mem_cons_of_mem x (ih h).1, (ih h).2⟩
    · rw [if_neg hx]
      intro h
      rcases List.mem_cons.1 h with rfl | h'
      · exact ⟨List.mem_cons_self a xs, hx⟩
      · have := ih h'
        exact ⟨List.mem_cons_of_mem x this.1,
          fun hc => this.2 (List.mem_cons_of_mem x hc)⟩

theorem nodup_dedupSeen : ∀ (seen l : List Str), (dedupSeen seen l).Nodup := by
  intro seen l
  induction l generalizing seen with
  | nil => exact List.nodup_nil
  | cons x xs ih =>
    rw [dedupSeen]
    by_cases hx : x ∈ seen
    · rw [if_pos hx]; exact ih seen
    · rw [if_neg hx]
      refine List.Nodup.cons (fun hc => ?_) (ih (x :: seen))
      exact (mem_dedupSeen hc).2 (List.mem_cons_self x seen)

theorem dedupSeen_eq_self : ∀ {seen l : List Str}, l.Nodup → (∀ a ∈ l, a ∉ seen) →
    dedupSeen seen l = l := by
  intro seen l
  induction l generalizing seen with
  | nil => intro _ _; rfl
  | cons x xs ih =>
    intro hn hd
    rcases List.nodup_cons.1 hn with ⟨hx, hxs⟩
    rw [dedupSeen, if_neg (hd x (List.mem_cons_self x xs)), ih hxs]
    intro a ha hc
    rcases List.mem_cons.1 hc with rfl | hc'
    · exact hx ha
    · exact hd a (List.mem_cons_of_mem x ha) hc'

-- --- Lemmas: `Char.toLower` is idempotent ---

theorem toNat_ofNat_of_valid {n : Nat} (h : n.isValidChar) : (Char.ofNat n).toNat = n := by
  rw [Char.ofNat, dif_pos h]
  rfl

theorem toLower_of_not_upper {c : Char} (h : ¬(c.toNat ≥ 65 ∧ c.toNat ≤ 90)) :
    Char.toLower c = c := by
  simp only [Char.toLower]
  exact if_neg h

theorem toLower_of_upper {c : Char} (h : c.toNat ≥ 65 ∧ c.toNat ≤ 90) :
    Char.toLower c = Char.ofNat (c.toNat + 32) := by
  simp only [Char.toLower]
  exact if_pos h

theorem toLower_toLower (c : Char) : Char.toLower (Char.toLower c) = Char.toLower c := by
  by_cases h : c.toNat ≥ 65 ∧ c.toNat ≤ 90
  · have hd : (Char.toLower c).toNat = c.toNat + 32 := by
      rw [toLower_of_upper h]
      exact toNat_ofNat_of_valid (Or.inl (by omega))
    exact toLower_of_not_upper (by rw [hd]; omega)
  · rw [toLower_of_not_upper h]
    exact toLower_of_not_upper h

-- --- Lemmas: characters of extracted keywords ---

theorem chars_of_splitOnSpace : ∀ {s w : Str} {c : Char},
    w ∈ splitOnSpace s → c ∈ w → c ∈ s ∧ isSpaceChar c = false := by
  intro s
  induction s with
  | nil =>
    intro w c hw hc
    simp [splitOnSpace] at hw
    subst hw
    cases hc
  | cons d cs ih =>
    intro w c hw hc
    by_cases hd : isSpaceChar d = true
    · rw [splitOnSpace_cons_space hd] at hw
      rcases List.mem_cons.1 hw with rfl | hw'
      · cases hc
      · have := ih hw' hc
        exact ⟨List.mem_cons_of_mem d this.1, this.2⟩
    · have hd' : isSpaceChar d = false := by simpa using hd
      rw [splitOnSpace_cons_nonspace hd'] at hw
      rcases List.mem_cons.1 hw with rfl | hw'
      · rcases List.mem_cons.1 hc with rfl | hc'
        · exact ⟨List.mem_cons_self c cs, hd'⟩
        · rcases hs : splitOnSpace cs with - | ⟨v, vs⟩
          · exact absurd hs (splitOnSpace_ne_nil cs)
          · have hv : (splitOnSpace cs).headI ∈ splitOnSpace cs := by
              rw [hs]; exact List.mem_cons_self v vs
            have := ih hv hc'
            exact ⟨List.mem_cons_of_mem d this.1, this.2⟩
      · have := ih (List.mem_of_mem_tail hw') hc
        exact ⟨List.mem_cons_of_mem d this.1, this.2⟩

/-- Every keyword the extractor emits is longer than 3 characters, and each of
its characters survives the strip filter, is not whitespace, and is fixed by
lowercasing. -/
theorem extractKeywords_tokens {t k : Str} (hk : k ∈ extractKeywords t) :
    3 < k.length ∧ ∀ c ∈ k,
      (isWordChar c || isSpaceChar c) = true ∧ isSpaceChar c = false
        ∧ Char.toLower c = c := by
  rw [extractKeywords, jsUniqueFilter_eq_dedupSeen] at hk
  have hk1 := (dedupSeen_sublist [] _).subset hk
  have hk2 := List.mem_filter.1 hk1
  refine ⟨by simpa using hk2.2, fun c hc => ?_⟩
  have hchar := chars_of_splitOnSpace hk2.1 hc
  have hkeep := List.mem_filter.1 hchar.1
  rcases List.mem_map.1 hkeep.1 with ⟨c₀, -, rfl⟩
  exact ⟨hkeep.2, hchar.2, toLower_toLower c₀⟩

theorem nodup_extractKeywords (t : Str) : (extractKeywords t).Nodup := by
  rw [extractKeywords, jsUniqueFilter_eq_dedupSeen]
  exact nodup_dedupSeen [] _

-- --- Lemmas: joining and re-splitting keywords ---

theorem chars_of_joinSep {sep : Str} : ∀ {ks : List Str} {c : Char},
    c ∈ joinSep sep ks → c ∈ sep ∨ ∃ k ∈ ks, c ∈ k := by
  intro ks
  induction ks with
  | nil => intro c hc; cases hc
  | cons k ks' ih =>
    intro c hc
    cases ks' with
    | nil =>
      refine Or.inr ⟨k, List.mem_cons_self k [], ?_⟩
      simpa [joinSep] using hc
    | cons k' ks'' =>
      rw [joinSep] at hc
      rcases List.mem_append.1 hc with h1 | h2
      · rcases List.mem_append.1 h1 with h3 | h4
        · exact Or.inr ⟨k, List.mem_cons_self k _, h3⟩
        · exact Or.inl h4
      · rcases ih h2 with h | ⟨k₀, hk₀, hck₀⟩
        · exact Or.inl h
        · exact Or.inr ⟨k₀, List.mem_cons_of_mem k hk₀, hck₀⟩

theorem splitOnSpace_joinSep : ∀ {ks : List Str}, ks ≠ [] →
    (∀ k ∈ ks, ∀ c ∈ k, isSpaceChar c = false) →
    splitOnSpace (joinSep [' '] ks) = ks := by
  intro ks
  induction ks with
  | nil => intro h; exact absurd rfl h
  | cons k ks' ih =>
    intro _ hsf
    cases ks' with
    | nil =>
      show splitOnSpace (joinSep [' '] [k]) = [k]
      have : joinSep [' '] [k] = k ++ [] := by simp [joinSep]
      rw [this, splitOnSpace_append_spacefree (hsf k (List.mem_cons_self k [])) []]
      simp [splitOnSpace]
    | cons k' ks'' =>
      have hj : joinSep [' '] (k :: k' :: ks'')
          = k ++ (' ' :: joinSep [' '] (k' :: ks'')) := by
        rw [joinSep, List.append_assoc]
        rfl
      rw [hj, splitOnSpace_append_spacefree (hsf k (List.mem_cons_self k _)) _,
        splitOnSpace_cons_space (by decide) _]
      rw [ih (by simp) (fun a ha => hsf a (List.mem_cons_of_mem k ha))]
      simp

/-- Extraction is the identity on a space-join of its own output. -/
theorem extractKeywords_joinSep_self (t : Str) :
    extractKeywords (joinSep [' '] (extractKeywords t)) = extractKeywords t := by
  rcases hks : extractKeywords t with - | ⟨k₀, ks₀⟩
  · rfl
  · rw [← hks]
    have htok : ∀ k ∈ extractKeywords t, 3 < k.length ∧ ∀ c ∈ k,
        (isWordChar c || isSpaceChar c) = true ∧ isSpaceChar c = false
          ∧ Char.toLower c = c :=
      fun k hk => extractKeywords_tokens hk
    have hjoin : ∀ c ∈ joinSep [' '] (extractKeywords t),
        (isWordChar c || isSpaceChar c) = true ∧ Char.toLower c = c := by
      intro c hc
      rcases chars_of_joinSep hc with h | ⟨k, hk, hck⟩
      · simp at h
        subst h
        exact ⟨by decide, by decide⟩
      · have := (htok k hk).2 c hck
        exact ⟨this.1, this.2.2⟩
    have h1 : toLowerStr (joinSep [' '] (extractKeywords t))
        = joinSep [' '] (extractKeywords t) := by
      rw [toLowerStr, List.map_congr_left (fun c hc => (hjoin c hc).2)]
      simp
    have h2 : stripNonWord (joinSep [' '] (extractKeywords t))
        = joinSep [' '] (extractKeywords t) :=
      List.filter_eq_self.2 (fun c hc => (hjoin c hc).1)
    have h3 : splitOnSpace (joinSep [' '] (extractKeywords t)) = extractKeywords t :=
      splitOnSpace_joinSep (by rw [hks]; simp)
        (fun k hk c hc => ((htok k hk).2 c hc).2.1)
    have h4 : (extractKeywords t).filter (fun w => 3 < w.length) = extractKeywords t :=
      List.filter_eq_self.2 (fun k hk => by simpa using (htok k hk).1)
    conv_lhs => rw [extractKeywords, h1, h2, h3, h4]
    rw [jsUniqueFilter_eq_dedupSeen,
      dedupSeen_eq_self (nodup_extractKeywords t) (fun a _ h => by cases h)]

-- --- Lemmas: score decomposition ---

theorem score_foldl_shift (item : KnowledgeItem) : ∀ (qk : List Str) (b : Nat),
    qk.foldl (fun score k =>
        let score := if k ∈ item.keywords then score + 2 else score
        if k <:+: toLowerStr item.content then score + 1 else score) b
      = b + qk.foldl (fun score k =>
        let score := if k ∈ item.keywords then score + 2 else score
        if k <:+: toLowerStr item.content then score + 1 else score) 0 := by
  intro qk
  induction qk with
  | nil => intro b; simp
  | cons k ks ih =>
    intro b
    rw [List.foldl_cons, List.foldl_cons, ih, ih ((fun score k =>
        let score := if k ∈ item.keywords then score + 2 else score
        if k <:+: toLowerStr item.content then score + 1 else score) 0 k)]
    by_cases h1 : k ∈ item.keywords <;> by_cases h2 : k <:+: toLowerStr item.content <;>
      simp [h1, h2] <;> omega

theorem scoreOf_decompose (qk : List Str) (q : Str) (item : KnowledgeItem) :
    scoreOf qk q item
      = (if toLowerStr q <:+: toLowerStr item.title then 10 else 0) + kwScore qk item := by
  rw [scoreOf, kwScore]
  exact score_foldl_shift item qk _

-- --- Lemmas: the retrieval pipeline ---

theorem retrievedItems_length_le (kb : List KnowledgeItem) (q : Str) :
    (retrievedItems kb q).length ≤ 5 := by
  rw [retrievedItems]
  exact List.length_take_le 5 _

theorem retrievedItems_pos (kb : List KnowledgeItem) (q : Str) :
    ∀ x ∈ retrievedItems kb q, 0 < x.2 := by
  intro x hx
  rw [retrievedItems] at hx
  have hx1 := (List.take_sublist 5 _).subset hx
  have hx2 := (sortByScoreDesc_perm _).mem_iff.1 hx1
  simpa using (List.mem_filter.1 hx2).2

theorem retrievedItems_sorted (kb : List KnowledgeItem) (q : Str) :
    (retrievedItems kb q).Pairwise (fun a b => b.2 ≤ a.2) := by
  rw [retrievedItems]
  exact List.Pairwise.sublist (List.take_sublist 5 _) (sorted_sortByScoreDesc _)

theorem retrievedItems_stable (kb : List KnowledgeItem) (q : Str) (n : Nat) :
    List.Sublist ((retrievedItems kb q).filter (fun x => decide (x.2 = n)))
      (scoredItems kb q) := by
  rw [retrievedItems]
  have h1 := (List.take_sublist 5
    (sortByScoreDesc ((scoredItems kb q).filter (fun x => 0 < x.2)))).filter
      (fun x => decide (x.2 = n))
  rw [filter_sortByScoreDesc] at h1
  exact h1.trans ((List.filter_sublist _).trans (List.filter_sublist _))

-- --- Lemmas: the rendered context ---

theorem renderSource_head (x : KnowledgeItem × Nat) :
    (renderSource x).head? = some '[' := by
  have h : ("[Source: ").toList = '[' :: ("Source: ").toList := by decide
  rw [renderSource, h]
  rfl

theorem joinSep_cons (sep w : Str) (rest : List Str) :
    ∃ r, joinSep sep (w :: rest) = w ++ r := by
  cases rest with
  | nil => exact ⟨[], by simp [joinSep]⟩
  | cons y ys => exact ⟨sep ++ joinSep sep (y :: ys), by rw [joinSep, List.append_assoc]⟩

theorem relevantContext_head (kb : List KnowledgeItem) (q : Str)
    (h : retrievedItems kb q ≠ []) : (relevantContext kb q).head? = some '[' := by
  rw [relevantContext]
  rcases hr : retrievedItems kb q with - | ⟨x, rest⟩
  · exact absurd hr h
  · rw [List.map_cons]
    rcases joinSep_cons (("\n\n").toList) (renderSource x) (rest.map renderSource)
      with ⟨r, hj⟩
    rw [hj, List.head?_append, renderSource_head]
    rfl

theorem relevantContext_eq_nil_iff (kb : List KnowledgeItem) (q : Str) :
    relevantContext kb q = [] ↔ retrievedItems kb q = [] := by
  constructor
  · intro h
    by_contra hne
    have := relevantContext_head kb q hne
    rw [h] at this
    cases this
  · intro h
    rw [relevantContext, h]
    rfl

theorem contextString_ne_nil (kb : List KnowledgeItem) (q : Str) :
    contextString kb q ≠ [] := by
  rw [contextString]
  split
  · decide
  · assumption

theorem contextString_eq_placeholder_iff (kb : List KnowledgeItem) (q : Str) :
    contextString kb q = noMatchesPlaceholder ↔ retrievedItems kb q = [] := by
  rw [contextString]
  split
  · rename_i h
    simp [(relevantContext_eq_nil_iff kb q).1 h]
  · rename_i h
    constructor
    · intro hc
      have hh := relevantContext_head kb q
        (fun hr => h ((relevantContext_eq_nil_iff kb q).2 hr))
      rw [hc] at hh
      have : noMatchesPlaceholder.head? = some 'N' := by decide
      rw [this] at hh
      cases hh
    · intro hr
      exact absurd ((relevantContext_eq_nil_iff kb q).2 hr) h

-- --- Concrete fixtures ---

/-- The knowledge item of the spec's worked example (§8). -/
def c4Item : KnowledgeItem :=
  { id := ("1").toList, category := ("General").toList, title := ("Tokenomics").toList,
    content := ("Total supply is 1000000 tokens").toList,
    keywords := [("tokenomics").toList, ("total").toList, ("supply").toList,
      ("1000000").toList, ("tokens").toList] }

/-- The query of the spec's worked example (§8). -/
def c4Query : Str := ("What is the tokenomics supply?").toList

def witnessItemA : KnowledgeItem :=
  { id := ("a").toList, category := ("General").toList, title := ("Alpha").toList,
    content := ("swarm theory basics").toList,
    keywords := [("alpha").toList, ("swarm").toList] }

def witnessItemB : KnowledgeItem :=
  { id := ("b").toList, category := ("Team").toList, title := ("Beta").toList,
    content := ("swarm notes").toList,
    keywords := [("beta").toList, ("swarm").toList] }

/-- A component state with every field at its initial value and the auth
handle present. -/
def blankState : AppState :=
  { user := true, apiKey := [], knowledgeBase := [], messages := [], input := [],
    isLoading := false, adminPasswordInput := [], isAdminUnlocked := false,
    loginError := false, newItemTitle := [], newItemCategory := ("General").toList,
    newItemContent := [] }

-- --- Claim theorems ---

/-- C1: for every knowledge base and query the retrieval scorer returns at
most 5 items, every returned item has strictly positive score, the returned
items are non-increasing in score, and the items of any fixed score form a
subsequence of the scored knowledge base in its original insertion order
(stability of the sort). -/
theorem retrieval_bounded_positive_sorted_stable (kb : List KnowledgeItem) (q : Str) :
    (retrievedItems kb q).length ≤ 5
    ∧ (∀ x ∈ retrievedItems kb q, 0 < x.2)
    ∧ (retrievedItems kb q).Pairwise (fun a b => b.2 ≤ a.2)
    ∧ ∀ n : Nat, List.Sublist ((retrievedItems kb q).filter (fun x => decide (x.2 = n)))
        (scoredItems kb q) :=
  ⟨retrievedItems_length_le kb q, retrievedItems_pos kb q, retrievedItems_sorted kb q,
    retrievedItems_stable kb q⟩

theorem retrieval_bounded_positive_sorted_stable_witness :
    ((witnessItemA, 3) ∈ retrievedItems [witnessItemA, witnessItemB] (("swarm").toList))
    ∧ 0 < ((witnessItemA, 3) : KnowledgeItem × Nat).2 :=
  ⟨by decide, (retrieval_bounded_positive_sorted_stable [witnessItemA, witnessItemB]
    (("swarm").toList)).2.1 (witnessItemA, 3) (by decide)⟩

/-- C2 counterexample: for the worked example's item and query, the item's
title IS (case-insensitively) a substring of the raw query, yet the computed
score is below 10 — the +10 bonus did not fire, so the claimed direction of
the title check ("+10 exactly when the title is a substring of the query",
hence "score ≥ 10 + keyword bonus") is false on the code. -/
theorem title_bonus_direction_counterexample :
    toLowerStr c4Item.title <:+: toLowerStr c4Query
    ∧ scoreOf (extractKeywords c4Query) c4Query c4Item < 10 := by decide

/-- C2 (amended): the +10 bonus applies exactly when the raw QUERY, compared
case-insensitively, is a substring of the item's TITLE (the code evaluates
`item.title.toLowerCase().includes(query.toLowerCase())`, the reverse of the
claimed direction); consequently, whenever the query is case-insensitively a
substring of the title, the score equals 10 plus the keyword-overlap bonus. -/
theorem title_bonus_reversed (q : Str) (item : KnowledgeItem) :
    (toLowerStr q <:+: toLowerStr item.title →
      scoreOf (extractKeywords q) q item = 10 + kwScore (extractKeywords q) item)
    ∧ (¬ toLowerStr q <:+: toLowerStr item.title →
      scoreOf (extractKeywords q) q item = kwScore (extractKeywords q) item) := by
  constructor
  · intro h
    rw [scoreOf_decompose, if_pos h]
  · intro h
    rw [scoreOf_decompose, if_neg h]
    simp

theorem title_bonus_reversed_witness :
    toLowerStr (("Tokenomics").toList) <:+: toLowerStr c4Item.title
    ∧ scoreOf (extractKeywords (("Tokenomics").toList)) (("Tokenomics").toList) c4Item
      = 10 + kwScore (extractKeywords (("Tokenomics").toList)) c4Item :=
  ⟨by decide, (title_bonus_reversed (("Tokenomics").toList) c4Item).1 (by decide)⟩

/-- C3: the extractor of the code (lowercase, strip `[^\w\s]`, split `\s+`,
keep tokens longer than 3, keep first occurrences via `indexOf`) computes the
deterministic function described by the spec (modelled independently as
`specExtractKeywords` with a word-splitter and a seen-set deduplicator); the
same `extractKeywords` is applied to `title + ' ' + content + ' ' + category`
when a knowledge item is created and to the query text when scoring. -/
theorem keyword_extraction_spec_function (t : Str) :
    specExtractKeywords t = extractKeywords t
    ∧ (∀ s : AppState, s.newItemTitle ≠ [] → s.newItemContent ≠ [] → s.user = true →
        (handleAddItem s).2 = some (StoreOp.addRecord s.newItemTitle s.newItemCategory
          s.newItemContent (extractKeywords
            (s.newItemTitle ++ ' ' :: s.newItemContent ++ ' ' :: s.newItemCategory))))
    ∧ (∀ kb q, scoredItems kb q
        = kb.map (fun item => (item, scoreOf (extractKeywords q) q item))) := by
  refine ⟨extractKeywords_eq_spec t, ?_, fun kb q => rfl⟩
  intro s h1 h2 h3
  rw [handleAddItem, if_neg (by simp [h1, h2]), if_neg (by simp [h3])]

theorem keyword_extraction_spec_function_witness :
    specExtractKeywords (("roadmap Details!").toList)
      = extractKeywords (("roadmap Details!").toList)
    ∧ (handleAddItem { blankState with
          newItemTitle := ("Roadmap").toList
          newItemContent := ("Phase one ships first").toList }).2
      = some (StoreOp.addRecord (("Roadmap").toList) (("General").toList)
          (("Phase one ships first").toList)
          (extractKeywords ((("Roadmap").toList) ++ ' ' ::
            (("Phase one ships first").toList) ++ ' ' :: (("General").toList)))) :=
  ⟨(keyword_extraction_spec_function (("roadmap Details!").toList)).1,
    (keyword_extraction_spec_function []).2.1
      { blankState with
        newItemTitle := ("Roadmap").toList
        newItemContent := ("Phase one ships first").toList }
      (by decide) (by decide) rfl⟩

/-- C4 counterexample: on the spec's worked example the code computes score 5,
not the claimed 6 ("tokenomics" is not a substring of the content
"Total supply is 1000000 tokens", so only "supply" earns the +1). -/
theorem tokenomics_example_counterexample :
    scoreOf (extractKeywords c4Query) c4Query c4Item ≠ 6 := by decide

/-- C4 (amended): for the worked example, the extracted query keywords include
"tokenomics" and "supply", no +10 title bonus applies, and the score is
5 = 2 + 2 (both keywords in the keyword set) + 1 ("supply" is a substring of
the content; "tokenomics" is NOT, so the example's second +1 never fires);
the item is retained by the scorer. -/
theorem tokenomics_example_amended :
    ("tokenomics").toList ∈ extractKeywords c4Query
    ∧ ("supply").toList ∈ extractKeywords c4Query
    ∧ ¬ toLowerStr c4Query <:+: toLowerStr c4Item.title
    ∧ ("tokenomics").toList ∈ c4Item.keywords
    ∧ ("supply").toList ∈ c4Item.keywords
    ∧ ("supply").toList <:+: toLowerStr c4Item.content
    ∧ ¬ ("tokenomics").toList <:+: toLowerStr c4Item.content
    ∧ scoreOf (extractKeywords c4Query) c4Query c4Item = 5
    ∧ (c4Item, 5) ∈ retrievedItems [c4Item] c4Query := by decide

/-- C5: keyword extraction is idempotent on its own output — extracting from
the space-join of the extracted keywords returns the same keyword sequence. -/
theorem keyword_extraction_idempotent (t : Str) :
    extractKeywords (joinSep [' '] (extractKeywords t)) = extractKeywords t :=
  extractKeywords_joinSep_self t

/-- C6: the retrieval-and-context step is a total function; the context
substituted into the prompt is never the empty string, and it equals the fixed
"no matches" placeholder exactly when no item qualifies — in particular for
the empty knowledge base with any query. -/
theorem context_never_empty_placeholder (kb : List KnowledgeItem) (q : Str) :
    contextString kb q ≠ []
    ∧ (contextString kb q = noMatchesPlaceholder ↔ retrievedItems kb q = [])
    ∧ contextString [] q = noMatchesPlaceholder :=
  ⟨contextString_ne_nil kb q, contextString_eq_placeholder_iff kb q,
    (contextString_eq_placeholder_iff [] q).2 rfl⟩

-- --- Lemmas: trimming ---

theorem trimStr_eq_nil {l : Str} (h : ∀ c ∈ l, isSpaceChar c = true) :
    trimStr l = [] := by
  have h1 : l.dropWhile isSpaceChar = [] := List.dropWhile_eq_nil_iff.2 h
  rw [trimStr, h1]
  rfl

/-- C7: sending a non-blank message while no API key is configured appends
exactly one `system` message after the user message, whose content is exactly
the fixed rendered System Offline text, and issues no network call; more
generally, on a transport error or an API-reported error the appended `system`
message's content is `"Error: "` followed by the error's message verbatim. -/
theorem no_key_appends_offline_system_message (s : AppState) (now settle : Nat)
    (oracle : FetchOutcome) (hin : trimStr s.input ≠ []) :
    (s.apiKey = [] →
      handleSendMessage s now settle oracle
        = ({ s with
              messages := s.messages ++ [userMsgOf s now, errMessageOf settle offlineText]
              input := []
              isLoading := false }, none))
    ∧ (errMessageOf settle offlineText).role = Role.system
    ∧ (errMessageOf settle offlineText).content
        = ("Error: System Offline: API Key not configured by Admin.").toList
    ∧ (∀ m, (errMessageOf settle m).content = ("Error: ").toList ++ m)
    ∧ (∀ m, s.apiKey ≠ [] → oracle = FetchOutcome.reject m →
        (handleSendMessage s now settle oracle).1.messages
          = s.messages ++ [userMsgOf s now, errMessageOf settle m]
          ∧ (errMessageOf settle m).role = Role.system)
    ∧ (∀ m t, s.apiKey ≠ [] → oracle = FetchOutcome.payload (some m) t →
        (handleSendMessage s now settle oracle).1.messages
          = s.messages ++ [userMsgOf s now, errMessageOf settle m]
          ∧ (errMessageOf settle m).role = Role.system) := by
  have hoff : ("Error: ").toList ++ offlineText
      = ("Error: System Offline: API Key not configured by Admin.").toList := by decide
  refine ⟨?_, rfl, hoff, fun m => rfl, ?_, ?_⟩
  · intro hkey
    simp [handleSendMessage, hin, hkey]
  · intro m hkey horacle
    subst horacle
    refine ⟨?_, rfl⟩
    simp [handleSendMessage, hin, hkey]
  · intro m t hkey horacle
    subst horacle
    refine ⟨?_, rfl⟩
    simp [handleSendMessage, hin, hkey]

theorem no_key_appends_offline_system_message_witness :
    trimStr (("hello there ").toList) ≠ []
    ∧ handleSendMessage { blankState with input := ("hello there ").toList } 0 1
        (FetchOutcome.payload none none)
      = ({ { blankState with input := ("hello there ").toList } with
            messages := ({ blankState with input := ("hello there ").toList }).messages
              ++ [userMsgOf { blankState with input := ("hello there ").toList } 0,
                  errMessageOf 1 offlineText]
            input := []
            isLoading := false }, none) :=
  ⟨by decide, (no_key_appends_offline_system_message
      { blankState with input := ("hello there ").toList } 0 1
      (FetchOutcome.payload none none) (by decide)).1 rfl⟩

/-- C8: for non-blank input, every outcome of the send operation appends
exactly one message beyond the synchronously appended user message and resets
the pending flag to false; when the payload carries no error but the expected
candidate text is absent (or the JS-falsy empty string), the appended message
is an `ai` message with the fixed fallback text rather than an error. -/
theorem send_appends_exactly_one_and_resets (s : AppState) (now settle : Nat)
    (oracle : FetchOutcome) (hin : trimStr s.input ≠ []) :
    ∃ m : Message,
      (handleSendMessage s now settle oracle).1.messages
        = s.messages ++ [userMsgOf s now, m]
      ∧ (handleSendMessage s now settle oracle).1.isLoading = false
      ∧ (s.apiKey ≠ [] → oracle = FetchOutcome.payload none none →
          m.role = Role.ai ∧ m.content = commFallback)
      ∧ (s.apiKey ≠ [] → oracle = FetchOutcome.payload none (some []) →
          m.role = Role.ai ∧ m.content = commFallback) := by
  by_cases hkey : s.apiKey = []
  · refine ⟨errMessageOf settle offlineText, ?_, ?_, ?_, ?_⟩
    · simp [handleSendMessage, hin, hkey]
    · simp [handleSendMessage, hin, hkey]
    · intro hk; exact absurd hkey hk
    · intro hk; exact absurd hkey hk
  · cases oracle with
    | reject m0 =>
      refine ⟨errMessageOf settle m0, ?_, ?_, ?_, ?_⟩
      · simp [handleSendMessage, hin, hkey]
      · simp [handleSendMessage, hin, hkey]
      · intro _ h; cases h
      · intro _ h; cases h
    | payload errMsg t =>
      cases errMsg with
      | some m0 =>
        refine ⟨errMessageOf settle m0, ?_, ?_, ?_, ?_⟩
        · simp [handleSendMessage, hin, hkey]
        · simp [handleSendMessage, hin, hkey]
        · intro _ h; cases h
        · intro _ h; cases h
      | none =>
        cases t with
        | none =>
          refine ⟨⟨natId (settle + 1), Role.ai, commFallback, settle⟩, ?_, ?_, ?_, ?_⟩
          · simp [handleSendMessage, hin, hkey]
          · simp [handleSendMessage, hin, hkey]
          · intro _ _; exact ⟨rfl, rfl⟩
          · intro _ h; cases h
        | some tx =>
          refine ⟨⟨natId (settle + 1), Role.ai,
            if tx = [] then commFallback else tx, settle⟩, ?_, ?_, ?_, ?_⟩
          · simp [handleSendMessage, hin, hkey]
          · simp [handleSendMessage, hin, hkey]
          · intro _ h; cases h
          · intro _ h
            have htx : tx = [] := by injection h with h1 h2; injection h2
            subst htx
            exact ⟨rfl, rfl⟩

theorem send_appends_exactly_one_and_resets_witness :
    ∃ m : Message,
      (handleSendMessage { blankState with
          input := ("ping").toList
          apiKey := ("k").toList } 0 1 (FetchOutcome.payload none none)).1.messages
        = ({ blankState with
            input := ("ping").toList
            apiKey := ("k").toList }).messages
          ++ [userMsgOf { blankState with
                input := ("ping").toList
                apiKey := ("k").toList } 0, m]
      ∧ (handleSendMessage { blankState with
          input := ("ping").toList
          apiKey := ("k").toList } 0 1 (FetchOutcome.payload none none)).1.isLoading = false
      ∧ (({ blankState with
            input := ("ping").toList
            apiKey := ("k").toList } : AppState).apiKey ≠ [] →
          FetchOutcome.payload none none = FetchOutcome.payload none none →
          m.role = Role.ai ∧ m.content = commFallback)
      ∧ (({ blankState with
            input := ("ping").toList
            apiKey := ("k").toList } : AppState).apiKey ≠ [] →
          FetchOutcome.payload none none = FetchOutcome.payload none (some []) →
          m.role = Role.ai ∧ m.content = commFallback) :=
  send_appends_exactly_one_and_resets { blankState with
    input := ("ping").toList
    apiKey := ("k").toList } 0 1 (FetchOutcome.payload none none) (by decide)

/-- C9: knowledge create and delete never touch the locally rendered list —
both handlers leave `knowledgeBase` unchanged; create issues a store write
only when title and content are non-empty (clearing just those two form
fields), delete issues only the store removal for the given id, and the local
list changes exactly when the store subscription pushes a new snapshot. -/
theorem crud_no_local_mutation (s : AppState) (id : Str) (items : List KnowledgeItem) :
    (handleAddItem s).1.knowledgeBase = s.knowledgeBase
    ∧ (handleDeleteItem s id).1.knowledgeBase = s.knowledgeBase
    ∧ ((handleAddItem s).2 ≠ none → s.newItemTitle ≠ [] ∧ s.newItemContent ≠ [])
    ∧ (s.newItemTitle ≠ [] → s.newItemContent ≠ [] → s.user = true →
        (handleAddItem s).1 = { s with newItemTitle := [], newItemContent := [] })
    ∧ (s.user = true → handleDeleteItem s id = (s, some (StoreOp.deleteRecord id)))
    ∧ (applyKnowledgeSnapshot s items).knowledgeBase = items := by
  refine ⟨?_, ?_, ?_, ?_, ?_, rfl⟩
  · rw [handleAddItem]
    split
    · rfl
    · split
      · rfl
      · rfl
  · rw [handleDeleteItem]
    split
    · rfl
    · rfl
  · intro hop
    rw [handleAddItem] at hop
    by_cases hv : s.newItemTitle = [] ∨ s.newItemContent = []
    · rw [if_pos hv] at hop
      exact absurd rfl hop
    · exact ⟨fun h => hv (Or.inl h), fun h => hv (Or.inr h)⟩
  · intro h1 h2 h3
    rw [handleAddItem, if_neg (by simp [h1, h2]), if_neg (by simp [h3])]
  · intro h3
    rw [handleDeleteItem, if_neg (by simp [h3])]

theorem crud_no_local_mutation_witness :
    (handleAddItem { blankState with
        newItemTitle := ("Team").toList
        newItemContent := ("Five engineers").toList
        knowledgeBase := [witnessItemA] }).1
      = { { blankState with
            newItemTitle := ("Team").toList
            newItemContent := ("Five engineers").toList
            knowledgeBase := [witnessItemA] } with
          newItemTitle := []
          newItemContent := [] } :=
  (crud_no_local_mutation { blankState with
      newItemTitle := ("Team").toList
      newItemContent := ("Five engineers").toList
      knowledgeBase := [witnessItemA] } [] []).2.2.2.1 (by decide) (by decide) rfl

/-- C10: for input that is empty or all whitespace, the send handler is a
complete no-op — the state (messages, pending flag, input field and all other
fields) is returned unchanged and no network request is produced. -/
theorem blank_input_send_noop (s : AppState) (now settle : Nat) (oracle : FetchOutcome)
    (h : ∀ c ∈ s.input, isSpaceChar c = true) :
    handleSendMessage s now settle oracle = (s, none) := by
  rw [handleSendMessage, if_pos (trimStr_eq_nil h)]

theorem blank_input_send_noop_witness :
    handleSendMessage { blankState with
        input := ("  ").toList
        apiKey := ("k").toList
        messages := [userMsgOf blankState 0] } 3 4 (FetchOutcome.reject [])
      = ({ blankState with
          input := ("  ").toList
          apiKey := ("k").toList
          messages := [userMsgOf blankState 0] }, none) :=
  blank_input_send_noop { blankState with
      input := ("  ").toList
      apiKey := ("k").toList
      messages := [userMsgOf blankState 0] } 3 4 (FetchOutcome.reject []) (by decide)

example : extractKeywords ("What is the tokenomics supply?").toList
    = [("what").toList, ("tokenomics").toList, ("supply").toList] := by decide

example : extractKeywords ("  Hello, hello WORLD! a_b_cd x ").toList
    = [("hello").toList, ("world").toList, ("a_b_cd").toList] := by decide
